import Mathlib

/-!
Verification of the rumdl rule engine (MD044 proper names, MD050 strong style)
and its LSP diagnostic adapter.

Documents are modelled as `List Char`; Rust byte offsets are recovered through
`Char.utf8Size`.  The external code-region oracle
(`LintContext::is_in_code_block_or_span`) is a parameter `inCode : Nat → Bool`
over byte offsets, exactly as the spec treats it (an external collaborator).
The two fixed regular expressions of MD050 and the combined proper-name
pattern of MD044 are given executable leftmost-match semantics that mirror the
patterns appearing in the source (`__[^_\\]+__`, `\*\*[^*\\]+\*\*`, and
`(?<![a-zA-Z0-9])(?i)(n1|n2|...)(?![a-zA-Z0-9])` with alternatives tried in
order, as a backtracking engine does).
-/

namespace Rumdl

/-- Total UTF-8 byte length of a character list (Rust `str::len`). -/
def byteLen : List Char → Nat
  | [] => 0
  | c :: cs => c.utf8Size + byteLen cs

/-- Byte offset of the character index `p` (the byte position of that char boundary). -/
def byteOffAt (cs : List Char) (p : Nat) : Nat :=
  byteLen (cs.take p)

/-- Number of whole characters encoded within the first `b` bytes of `cs`.
Converts a (boundary) byte offset back to a character index. -/
def charIdxOfByte : List Char → Nat → Nat
  | [], _ => 0
  | _ :: _, 0 => 0
  | c :: cs, (b+1) => if b + 1 < c.utf8Size then 0 else 1 + charIdxOfByte cs (b + 1 - c.utf8Size)

/-- `b` is a character-boundary byte offset of `cs` (the offset of the end of the
text counts as a boundary, as in Rust). -/
def isBoundary : List Char → Nat → Bool
  | _, 0 => true
  | [], _+1 => false
  | c :: cs, (b+1) => if b + 1 < c.utf8Size then false else isBoundary cs (b + 1 - c.utf8Size)

/-- Split at every newline character, keeping empty pieces. -/
def splitOnNl : List Char → List (List Char)
  | [] => [[]]
  | c :: cs =>
      if c = '\n' then [] :: splitOnNl cs
      else
        match splitOnNl cs with
        | [] => [[c]]
        | l :: ls => (c :: l) :: ls

/-- Drop a single trailing carriage return, as Rust `str::lines` does per line. -/
def stripCr (cs : List Char) : List Char :=
  match cs.getLast? with
  | some '\r' => cs.dropLast
  | _ => cs

/-- Rust `str::lines`: split at newlines, drop the piece after a final newline,
strip one trailing carriage return from every line. -/
def rustLines (cs : List Char) : List (List Char) :=
  if cs = [] then []
  else
    let ps := splitOnNl cs
    let ps := if cs.getLast? = some '\n' then ps.dropLast else ps
    ps.map stripCr

/-- Iterated leftmost matching: from position `pos`, try the single-position
matcher `f`; on a match ending at `e` continue at `max e (pos + 1)` (so empty
matches cannot stall), otherwise advance one position.  `stop` is the last
position tried; `fuel` only serves termination and is always sufficient at the
call site below. -/
def findIterAux (f : Nat → Option Nat) (stop : Nat) : Nat → Nat → List (Nat × Nat)
  | 0, _ => []
  | fuel+1, pos =>
      if pos > stop then []
      else
        match f pos with
        | some e => (pos, e) :: findIterAux f stop fuel (max e (pos + 1))
        | none => findIterAux f stop fuel (pos + 1)

/-- All leftmost non-overlapping matches of `f` over a text of `len` characters
(`Regex::find_iter`). -/
def findIter (f : Nat → Option Nat) (len : Nat) : List (Nat × Nat) :=
  findIterAux f len (len + 1) 0

/-- Length of the maximal run of characters other than `mark` and backslash. -/
def runLen (mark : Char) : List Char → Nat
  | [] => 0
  | c :: cs => if c ≠ mark ∧ c ≠ '\\' then runLen mark cs + 1 else 0

/-- One attempt of the MD050 pattern `mm[^m\\]+mm` (with `m` the marker char) at
character position `p`; returns the exclusive end of the match.  At a given
start the pattern matches in exactly one way: two markers, the maximal nonempty
run of non-marker non-backslash characters, then two markers (characters inside
the run can never begin the closing marker pair, so backtracking adds nothing). -/
def matchStrongAt (mark : Char) (cs : List Char) (p : Nat) : Option Nat :=
  if cs.get? p = some mark ∧ cs.get? (p+1) = some mark then
    let k := runLen mark (cs.drop (p+2))
    if k = 0 then none
    else if cs.get? (p+2+k) = some mark ∧ cs.get? (p+3+k) = some mark then
      some (p + 4 + k)
    else none
  else none

/-- Backslash run ending just before index `pos`: the scan of
`MD050StrongStyle::is_escaped`, reading characters with `chars().nth(i)` and
`unwrap_or(' ')`.  Note the index is whatever the caller passes (the source
passes a byte offset). -/
def backslashRun (text : List Char) : Nat → Nat
  | 0 => 0
  | i+1 => if (text.get? i).getD ' ' = '\\' then backslashRun text i + 1 else 0

/-- `MD050StrongStyle::is_escaped`: odd number of consecutive backslashes
counted downward from `pos`. -/
def isEscaped (text : List Char) (pos : Nat) : Bool :=
  if pos = 0 then false else backslashRun text pos % 2 == 1

inductive StrongStyle
  | Asterisk
  | Underscore
  | Consistent
deriving DecidableEq

/-- The first match of the given marker pattern over the whole document that is
not inside a code region (the loop-with-break in `detect_style`). -/
def firstNonCode (mark : Char) (inCode : Nat → Bool) (cs : List Char) : Option (Nat × Nat) :=
  (findIter (matchStrongAt mark cs) cs.length).find? (fun m => ! inCode (byteOffAt cs m.1))

/-- `MD050StrongStyle::detect_style`. -/
def detectStyle (inCode : Nat → Bool) (cs : List Char) : Option StrongStyle :=
  match firstNonCode '*' inCode cs, firstNonCode '_' inCode cs with
  | some a, some u =>
      if byteOffAt cs a.1 < byteOffAt cs u.1 then some .Asterisk else some .Underscore
  | some _, none => some .Asterisk
  | none, some _ => some .Underscore
  | none, none => none

/-- Resolution of the configured style performed at the top of `check` and
`fix`: `Consistent` resolves through `detect_style` with asterisk default. -/
def resolveStyle (style : StrongStyle) (inCode : Nat → Bool) (cs : List Char) : StrongStyle :=
  match style with
  | .Consistent => (detectStyle inCode cs).getD .Asterisk
  | s => s

/-- Marker character of the pattern scanned for (the non-target style).  The
`Consistent` branch is unreachable in the source after resolution. -/
def nonTargetMark : StrongStyle → Char
  | .Asterisk => '_'
  | .Underscore => '*'
  | .Consistent => '_'

/-- Marker character used for replacements (the target style).  The
`Consistent` branch is unreachable in the source after resolution. -/
def targetMark : StrongStyle → Char
  | .Asterisk => '*'
  | .Underscore => '_'
  | .Consistent => '*'

/-- Warning message of MD050 per target style. -/
def strongMessage : StrongStyle → String
  | .Asterisk => "Strong emphasis should use ** instead of __"
  | .Underscore => "Strong emphasis should use __ instead of **"
  | .Consistent => ""

inductive Severity
  | Error
  | Warning
deriving DecidableEq

/-- A single edit: byte range into the original document plus replacement text. -/
structure Fix where
  range : Nat × Nat
  replacement : List Char
deriving DecidableEq

/-- `rule::LintWarning` (1-based lines and columns). -/
structure LintWarning where
  ruleName : Option String
  line : Nat
  column : Nat
  endLine : Nat
  endColumn : Nat
  message : String
  severity : Severity
  fix : Option Fix
deriving DecidableEq

/-- Modelled from the spec: `calculate_match_range` lives in
src/utils/range_utils.rs, which is not part of the provided sources.  Per spec
section 4.1 positions are 1-based and columns count characters, so the byte
offset of a match inside one physical line is converted to a character column;
the match lies on a single line. -/
def calculate_match_range (lineNo : Nat) (line : List Char) (startByte : Nat) (lenBytes : Nat) :
    Nat × Nat × Nat × Nat :=
  (lineNo, charIdxOfByte line startByte + 1, lineNo, charIdxOfByte line (startByte + lenBytes) + 1)

/-- Modelled from the spec: `LineIndex::line_col_to_byte_range` lives in
src/utils/range_utils.rs, which is not part of the provided sources.  Per spec
section 4.1 it maps a 1-based (line, column) position to the byte offset of
that position; the returned range starts there. -/
def line_col_to_byte_range (cs : List Char) (line col : Nat) : Nat × Nat :=
  let ls := rustLines cs
  let before := (ls.take (line - 1)).foldl (fun n l => n + byteLen l + 1) 0
  let lineCs := (ls.get? (line - 1)).getD []
  let b := before + byteOffAt lineCs (col - 1)
  (b, b)

/-- The warning MD050 pushes for one match at char range `[s, e)` of `line`. -/
def mkWarning050 (cs : List Char) (target : StrongStyle) (lineNo : Nat) (line : List Char)
    (s e : Nat) : LintWarning :=
  let sb := byteOffAt line s
  let eb := byteOffAt line e
  let text := (line.take (e - 2)).drop (s + 2)
  let r := calculate_match_range lineNo line sb (eb - sb)
  { ruleName := some "MD050"
    line := r.1
    column := r.2.1
    endLine := r.2.2.1
    endColumn := r.2.2.2
    message := strongMessage target
    severity := .Warning
    fix := some { range := line_col_to_byte_range cs lineNo (sb + 1)
                  replacement :=
                    [targetMark target, targetMark target] ++ text
                      ++ [targetMark target, targetMark target] } }

/-- The per-line loop of `MD050StrongStyle::check`: scan each line with the
non-target pattern, skip matches inside code regions, skip escaped matches
(`is_escaped` is called with the line and the byte offset of the match inside
the line), and push a warning for the rest. -/
def check050Lines (cs : List Char) (target : StrongStyle) (inCode : Nat → Bool) :
    List (List Char) → Nat → Nat → List LintWarning
  | [], _, _ => []
  | line :: rest, lineNum, bytePos =>
      ((findIter (matchStrongAt (nonTargetMark target) line) line.length).filterMap (fun m =>
        if inCode (bytePos + byteOffAt line m.1) then none
        else if isEscaped line (byteOffAt line m.1) then none
        else some (mkWarning050 cs target (lineNum + 1) line m.1 m.2)))
        ++ check050Lines cs target inCode rest (lineNum + 1) (bytePos + byteLen line + 1)

/-- `MD050StrongStyle::check`. -/
def check050 (style : StrongStyle) (inCode : Nat → Bool) (cs : List Char) : List LintWarning :=
  let target := resolveStyle style inCode cs
  check050Lines cs target inCode (rustLines cs) 0 0

/-- Splice `rep` over the character range `[s, e)` (Rust `String::replace_range`
at the corresponding byte range). -/
def replaceRange (cs : List Char) (s e : Nat) (rep : List Char) : List Char :=
  cs.take s ++ rep ++ cs.drop e

/-- `MD050StrongStyle::fix`: matches of the non-target pattern over the whole
document (not per line), filtered by the code-region oracle and `is_escaped`
(both called with byte offsets into the document), rewritten in reverse order. -/
def fix050 (style : StrongStyle) (inCode : Nat → Bool) (cs : List Char) : List Char :=
  let target := resolveStyle style inCode cs
  let ms := (findIter (matchStrongAt (nonTargetMark target) cs) cs.length).filter (fun m =>
      ! inCode (byteOffAt cs m.1) && ! isEscaped cs (byteOffAt cs m.1))
  ms.reverse.foldl (fun result m =>
      let text := (result.take (m.2 - 2)).drop (m.1 + 2)
      replaceRange result m.1 m.2
        ([targetMark target, targetMark target] ++ text
          ++ [targetMark target, targetMark target])) cs

/-! ### MD044 proper names -/

/-- `MD044Config`: ordered list of canonical names and the code-block exclusion
flag. -/
structure MD044Config where
  names : List (List Char)
  code_blocks : Bool

/-- Character-wise lowercasing (Rust `str::to_lowercase`, `(?i)` simple fold). -/
def lowerList (cs : List Char) : List Char := cs.map Char.toLower

/-- Remove every dot (Rust `str::replace('.', "")`). -/
def stripDots (cs : List Char) : List Char := cs.filter (fun c => c != '.')

/-- Alternatives of `create_combined_pattern` in the order a backtracking
alternation tries them: for each configured name its lowercase form, then the
dot-stripped lowercase form when it differs. -/
def altList (names : List (List Char)) : List (List Char) :=
  names.foldr (fun name acc =>
    let lower := lowerList name
    let noDots := stripDots lower
    if lower = noDots then lower :: acc else lower :: noDots :: acc) []

/-- ASCII `[a-zA-Z0-9]`, the class used by the boundary lookarounds. -/
def isAsciiAlnum (c : Char) : Bool :=
  (97 ≤ c.toNat && c.toNat ≤ 122) || (65 ≤ c.toNat && c.toNat ≤ 90)
    || (48 ≤ c.toNat && c.toNat ≤ 57)

/-- Case-insensitive literal match of the (pre-lowercased) pattern `pat`
against the head of `text`. -/
def litMatch : List Char → List Char → Bool
  | [], _ => true
  | _ :: _, [] => false
  | a :: pat, c :: text => a == c.toLower && litMatch pat text

/-- The character at index `i` is absent or not ASCII alphanumeric (the shape of
both negative lookarounds). -/
def notAlnumAt (cs : List Char) (i : Nat) : Bool :=
  match cs.get? i with
  | some c => ! isAsciiAlnum c
  | none => true

/-- Try the alternatives in order at position `p`; an alternative succeeds when
its literal matches and the negative lookahead `(?![a-zA-Z0-9])` holds after
it (on lookahead failure the engine backtracks into the next alternative). -/
def tryAlts (cs : List Char) (p : Nat) : List (List Char) → Option Nat
  | [] => none
  | a :: rest =>
      if litMatch a (cs.drop p) && notAlnumAt cs (p + a.length) then some (p + a.length)
      else tryAlts cs p rest

/-- One attempt of the combined MD044 pattern at character position `p`:
negative lookbehind `(?<![a-zA-Z0-9])`, then the alternation. -/
def matchNameAt (alts : List (List Char)) (cs : List Char) (p : Nat) : Option Nat :=
  match p with
  | 0 => tryAlts cs 0 alts
  | q+1 => if notAlnumAt cs q then tryAlts cs (q+1) alts else none

/-- `MD044ProperNames::get_proper_name_for`: first configured name whose
lowercase form or dot-stripped lowercase form equals the lowercased match. -/
def getProperNameFor (cfg : MD044Config) (found : List Char) : Option (List Char) :=
  cfg.names.find? (fun name =>
    lowerList found == lowerList name || lowerList found == stripDots (lowerList name))

/-- Exact literal prefix test. -/
def startsLit : List Char → List Char → Bool
  | [], _ => true
  | _ :: _, [] => false
  | a :: pat, c :: text => a == c && startsLit pat text

/-- Substring containment (Rust `str::contains` with a literal needle). -/
def containsSub (needle : List Char) : List Char → Bool
  | [] => startsLit needle []
  | c :: t => startsLit needle (c :: t) || containsSub needle t

/-- The cheap probe: some configured name (or its dot-stripped form) occurs,
lowercased, in the lowercased text. -/
def nameProbe (cfg : MD044Config) (textLower : List Char) : Bool :=
  cfg.names.any (fun name =>
    containsSub (lowerList name) textLower || containsSub (stripDots (lowerList name)) textLower)

/-- A line whose trimmed start opens or closes a fenced code block. -/
def isFenceLine (line : List Char) : Bool :=
  let t := line.dropWhile Char.isWhitespace
  startsLit ("```".data) t || startsLit ("~~~".data) t

/-- The violations MD044 collects on one line: for each combined-pattern match,
the matched text (original casing), resolved to its canonical name; flagged only
when it differs from the canonical form.  Columns are 1-based byte offsets. -/
def lineViols044 (cfg : MD044Config) (alts : List (List Char)) (line : List Char) (lineNo : Nat) :
    List (Nat × Nat × List Char) :=
  (findIter (matchNameAt alts line) line.length).filterMap (fun m =>
    match getProperNameFor cfg ((line.take m.2).drop m.1) with
    | some proper =>
        if (line.take m.2).drop m.1 ≠ proper then
          some (lineNo, byteOffAt line m.1 + 1, (line.take m.2).drop m.1)
        else none
    | none => none)

/-- The per-line loop of `find_name_violations`: skip fence lines, skip lines
whose start lies in a code region when exclusion is on, skip lines failing the
cheap probe, otherwise collect the line's violations. -/
def findViols044Lines (cfg : MD044Config) (alts : List (List Char)) (inCode : Nat → Bool) :
    List (List Char) → Nat → Nat → List (Nat × Nat × List Char)
  | [], _, _ => []
  | line :: rest, lineNum, bytePos =>
      let next := findViols044Lines cfg alts inCode rest (lineNum + 1) (bytePos + byteLen line + 1)
      if isFenceLine line then next
      else if cfg.code_blocks && inCode bytePos then next
      else if ! nameProbe cfg (lowerList line) then next
      else lineViols044 cfg alts line (lineNum + 1) ++ next

/-- `MD044ProperNames::find_name_violations`.  The content-hash memoization is
omitted: it is keyed by the full content and replays the list computed for
identical content, so it is semantically the identity here. -/
def find_name_violations (cfg : MD044Config) (inCode : Nat → Bool) (cs : List Char) :
    List (Nat × Nat × List Char) :=
  if cfg.names.isEmpty || cs.isEmpty then []
  else if ! nameProbe cfg (lowerList cs) then []
  else findViols044Lines cfg (altList cfg.names) inCode (rustLines cs) 0 0

/-- The warning MD044 builds from one violation triple. -/
def mkWarning044 (cs : List Char) (v : Nat × Nat × List Char) (proper : List Char) : LintWarning :=
  { ruleName := some "MD044"
    line := v.1
    column := v.2.1
    endLine := v.1
    endColumn := v.2.1 + byteLen v.2.2
    message := "Proper name \x27" ++ String.mk v.2.2 ++ "\x27 should be \x27"
      ++ String.mk proper ++ "\x27"
    severity := .Warning
    fix := some { range := line_col_to_byte_range cs v.1 v.2.1, replacement := proper } }

/-- `MD044ProperNames::check`. -/
def check044 (cfg : MD044Config) (inCode : Nat → Bool) (cs : List Char) : List LintWarning :=
  if cs.isEmpty || cfg.names.isEmpty then []
  else (find_name_violations cfg inCode cs).filterMap (fun v =>
    (getProperNameFor cfg v.2.2).map (mkWarning044 cs v))

/-! ### LSP adapter -/

/-- LSP position (0-based line and character). -/
structure LspPos where
  line : Nat
  character : Nat
deriving DecidableEq

/-- LSP range.  The second field is named `stop` because `end` is reserved. -/
structure LspRange where
  start : LspPos
  stop : LspPos
deriving DecidableEq

/-- The fields of `tower_lsp::Diagnostic` that the adapter populates.  The
severity is always set in the source, so it is not optional here. -/
structure Diagnostic where
  range : LspRange
  severity : Severity
  code : Option String
  source : String
  message : String
  codeDescriptionHref : Option String
deriving DecidableEq

/-- Truncation performed by the `as u32` casts. -/
def u32cast (n : Nat) : Nat := n % 4294967296

/-- `lsp::warning_to_diagnostic`: 1-based to 0-based via `saturating_sub(1)`
(Nat subtraction is exactly saturating subtraction) then `as u32`.  The
documentation link always parses (a well-formed https URL; URL parsing is an
external capability). -/
def warning_to_diagnostic (w : LintWarning) : Diagnostic :=
  { range := { start := { line := u32cast (w.line - 1), character := u32cast (w.column - 1) }
               stop := { line := u32cast (w.endLine - 1), character := u32cast (w.endColumn - 1) } }
    severity := w.severity
    code := w.ruleName
    source := "rumdl"
    message := w.message
    codeDescriptionHref := w.ruleName.map (fun r =>
      "https://github.com/rvben/rumdl/blob/main/docs/" ++ r.toLower ++ ".md") }

/-- The character walk of `byte_range_to_lsp_range`: per character, record the
start position when the byte position equals the range start, record the end
position and break when it equals the range end, then advance line/character
and the byte position; after the loop an end exactly at end-of-text is accepted. -/
def brGo (bstart bend : Nat) : List Char → Nat → Nat → Nat → Option LspPos → Option LspRange
  | [], line, ch, bp, sp =>
      if bp = bend then
        match sp with
        | some s => some { start := s, stop := { line := line, character := ch } }
        | none => none
      else none
  | c :: cs, line, ch, bp, sp =>
      let sp1 := if bp = bstart then some { line := line, character := ch } else sp
      if bp = bend then
        match sp1 with
        | some s => some { start := s, stop := { line := line, character := ch } }
        | none => none
      else if c = '\n' then brGo bstart bend cs (line + 1) 0 (bp + c.utf8Size) sp1
      else brGo bstart bend cs line (ch + 1) (bp + c.utf8Size) sp1

/-- `lsp::byte_range_to_lsp_range`. -/
def byte_range_to_lsp_range (text : List Char) (bstart bend : Nat) : Option LspRange :=
  brGo bstart bend text 0 0 0 none

/-- LSP text edit. -/
structure TextEdit where
  range : LspRange
  newText : List Char
deriving DecidableEq

/-- Workspace edit: document URI paired with its list of edits (the single
HashMap insertion of the source). -/
structure WorkspaceEdit where
  changes : List (String × List TextEdit)
deriving DecidableEq

/-- The fields of `tower_lsp::CodeAction` the adapter populates. -/
structure CodeAction where
  title : String
  kind : String
  diagnostics : List Diagnostic
  edit : Option WorkspaceEdit
  isPreferred : Bool
deriving DecidableEq

/-- `lsp::warning_to_code_action`: only for warnings carrying a fix, and only
when the fix byte range maps to LSP positions; the produced action holds one
edit over the one document. -/
def warning_to_code_action (w : LintWarning) (uri : String) (documentText : List Char) :
    Option CodeAction :=
  match w.fix with
  | some f =>
      match byte_range_to_lsp_range documentText f.range.1 f.range.2 with
      | some range =>
          some { title := "Fix: " ++ w.message
                 kind := "quickfix"
                 diagnostics := [warning_to_diagnostic w]
                 edit := some { changes := [(uri, [{ range := range, newText := f.replacement }])] }
                 isPreferred := true }
      | none => none
  | none => none

/-- The trivial code-region oracle: no code regions. -/
def noCode : Nat → Bool := fun _ => false

/-! ### Spec-side definitions used by refinement claims -/

/-- Following the claim wording for C5 (spec section 4.4): the first occurrence
of the given marker pattern that is not inside a code region. -/
def specFirstNonCode (mark : Char) (inCode : Nat → Bool) (cs : List Char) : Option (Nat × Nat) :=
  ((findIter (matchStrongAt mark cs) cs.length).filter (fun m => ! inCode (byteOffAt cs m.1))).head?

/-- Following the claim wording for C5: whichever of the two first
non-code-region occurrences has the lower byte offset gives the dominant style;
if only one style occurs it is dominant; if neither occurs there is no
preference. -/
def specDominantStyle (inCode : Nat → Bool) (cs : List Char) : Option StrongStyle :=
  match specFirstNonCode '*' inCode cs, specFirstNonCode '_' inCode cs with
  | some a, some u =>
      if byteOffAt cs a.1 < byteOffAt cs u.1 then some .Asterisk else some .Underscore
  | some _, none => some .Asterisk
  | none, some _ => some .Underscore
  | none, none => none

/-! ### Basic lemmas -/

theorem findFirstEqFilterHead (p : α → Bool) : ∀ l : List α, l.find? p = (l.filter p).head? := by
  intro l
  induction l with
  | nil => rfl
  | cons a l ih =>
    cases h : p a with
    | true => rw [List.find?_cons_of_pos _ h, List.filter_cons_of_pos h, List.head?_cons]
    | false => rw [List.find?_cons_of_neg _ (by simp [h]), List.filter_cons_of_neg (by simp [h]), ih]

theorem detectEqSpecDominant (inCode : Nat → Bool) (cs : List Char) :
    detectStyle inCode cs = specDominantStyle inCode cs := by
  unfold detectStyle specDominantStyle firstNonCode specFirstNonCode
  rw [findFirstEqFilterHead, findFirstEqFilterHead]

theorem detectStyleNeConsistent (inCode : Nat → Bool) (cs : List Char) :
    detectStyle inCode cs ≠ some .Consistent := by
  unfold detectStyle
  cases firstNonCode '*' inCode cs with
  | none =>
    cases firstNonCode '_' inCode cs <;> simp
  | some a =>
    cases firstNonCode '_' inCode cs with
    | none => simp
    | some u =>
      by_cases h : byteOffAt cs a.1 < byteOffAt cs u.1 <;> simp [h]

theorem check050Consistent (inCode : Nat → Bool) (cs : List Char) :
    check050 .Consistent inCode cs
      = check050 ((detectStyle inCode cs).getD .Asterisk) inCode cs := by
  unfold check050 resolveStyle
  cases h : detectStyle inCode cs with
  | none => simp
  | some s =>
    cases s with
    | Asterisk => simp
    | Underscore => simp
    | Consistent => exact absurd h (detectStyleNeConsistent inCode cs)

theorem fix050Consistent (inCode : Nat → Bool) (cs : List Char) :
    fix050 .Consistent inCode cs
      = fix050 ((detectStyle inCode cs).getD .Asterisk) inCode cs := by
  unfold fix050 resolveStyle
  cases h : detectStyle inCode cs with
  | none => simp
  | some s =>
    cases s with
    | Asterisk => simp
    | Underscore => simp
    | Consistent => exact absurd h (detectStyleNeConsistent inCode cs)

/-! ### Claim theorems: concrete rule behaviour -/

/-- Claim C1 (code-bug evidence): on the document consisting of the characters
of the string written `__a`, newline, `b__`, with MD050 forced to asterisk
style and no code regions, `check` returns no violations — it scans line by
line, and the underscore pattern cannot cross the newline — yet `fix`, which
scans the whole document, rewrites the document.  So an empty `check` does not
make `fix` the identity, contradicting the claim. -/
theorem c1_md050_check_empty_but_fix_rewrites :
    check050 .Asterisk noCode ("__a\nb__".data) = []
      ∧ fix050 .Asterisk noCode ("__a\nb__".data) = "**a\nb**".data
      ∧ fix050 .Asterisk noCode ("__a\nb__".data) ≠ "__a\nb__".data := by
  refine ⟨by decide, by decide, by decide⟩

/-- Claim C2 (code-bug evidence): on the document `x____a____` with MD050
forced to asterisk style and no code regions, the first `fix` produces
`x__**a**__` — leaving a stray pair of underscores that now encloses a run
without underscores — and a second `fix` rewrites again to `x****a****`, so
`fix` is not idempotent. -/
theorem c2_md050_fix_not_idempotent :
    fix050 .Asterisk noCode ("x____a____".data) = "x__**a**__".data
      ∧ fix050 .Asterisk noCode (fix050 .Asterisk noCode ("x____a____".data))
          = "x****a****".data
      ∧ fix050 .Asterisk noCode (fix050 .Asterisk noCode ("x____a____".data))
          ≠ fix050 .Asterisk noCode ("x____a____".data) := by
  refine ⟨by decide, by decide, by decide⟩

/-- Claim C3 (code-bug evidence): in the line `é\**b**` (a two-byte character,
one backslash, then an asterisk marker) the marker match starts at character
index 2 and is preceded by exactly one backslash, an odd count, so per the
claim it must not be flagged.  But `is_escaped` receives the byte offset 3 of
the match and indexes characters with it, reads the asterisk at character
index 2, counts zero backslashes, and the marker is flagged. -/
theorem c3_escape_parity_broken_by_byte_offsets :
    backslashRun ("é\\**b**".data) 2 = 1
      ∧ isEscaped ("é\\**b**".data) (byteOffAt ("é\\**b**".data) 2) = false
      ∧ (check050 .Underscore noCode ("é\\**b**".data)).length = 1 := by
  refine ⟨by decide, by decide, by decide⟩

/-- Claim C4: with configured name `Go`, the document `Going` produces no
violation (the negative lookarounds reject partial-word matches), while the
document `go` followed by a space produces exactly one violation, at line 1
column 1, whose fix replacement is `Go`. -/
theorem c4_word_boundaries :
    check044 ⟨["Go".data], true⟩ noCode ("Going".data) = []
      ∧ ((check044 ⟨["Go".data], true⟩ noCode ("go ".data)).map
          (fun w => (w.line, w.column, w.fix.map Fix.replacement)))
        = [(1, 1, some ("Go".data))] := by
  refine ⟨by decide, by decide⟩

/-- Claim C9: in a document whose only occurrence of the configured name `Go`
(lowercase `go`) sits inside a fenced code block — with the oracle marking
bytes 4 to 6, the second line — MD044 `check` produces zero violations when
code-block exclusion is enabled and exactly one violation when it is
disabled. -/
theorem c9_code_region_exclusion :
    check044 ⟨["Go".data], true⟩ (fun b => decide (4 ≤ b ∧ b < 7)) ("```\ngo\n```".data) = []
      ∧ ((check044 ⟨["Go".data], false⟩ (fun b => decide (4 ≤ b ∧ b < 7)) ("```\ngo\n```".data)).map
          (fun w => (w.line, w.column, w.fix.map Fix.replacement)))
        = [(2, 1, some ("Go".data))] := by
  refine ⟨by decide, by decide⟩

/-- Claim C5: with style configured to `Consistent`, the style MD050 actually
uses is the one determined by the first occurrence (lowest byte offset) of
either marker pattern outside code regions (`detectStyle` equals the spec-side
`specDominantStyle`), and when inference yields nothing the asterisk default is
used — both `check` and `fix` behave exactly as if the resolved style had been
forced.  Concretely, a document with `__first__` before `**text**` infers
underscore, and the asterisk occurrence is flagged for conversion to
`__text__`. -/
theorem c5_style_inference :
    (∀ (inCode : Nat → Bool) (cs : List Char),
        detectStyle inCode cs = specDominantStyle inCode cs
        ∧ check050 .Consistent inCode cs
            = check050 ((detectStyle inCode cs).getD .Asterisk) inCode cs
        ∧ fix050 .Consistent inCode cs
            = fix050 ((detectStyle inCode cs).getD .Asterisk) inCode cs)
    ∧ (check050 .Consistent noCode ("__first__ **text**".data)).map
        (fun w => w.fix.map Fix.replacement) = [some ("__text__".data)] := by
  refine ⟨fun inCode cs => ⟨detectEqSpecDominant inCode cs,
    check050Consistent inCode cs, fix050Consistent inCode cs⟩, by decide⟩

/-! ### Claim theorems: LSP adapter -/

/-- Claim C10: the 1-based to 0-based conversion in `warning_to_diagnostic`
uses saturating subtraction (Nat subtraction is exactly `saturating_sub`) and
then truncates to `u32`, so it is total for every warning — including warnings
whose line or column is 0 instead of the expected 1-based minimum — and both 0
and 1 map to coordinate 0. -/
theorem c10_saturating_position_conversion :
    ∀ w : LintWarning,
      (warning_to_diagnostic w).range.start.line = (w.line - 1) % 4294967296
      ∧ (warning_to_diagnostic w).range.start.character = (w.column - 1) % 4294967296
      ∧ ((w.line = 0 ∨ w.line = 1) → (warning_to_diagnostic w).range.start.line = 0)
      ∧ ((w.column = 0 ∨ w.column = 1) → (warning_to_diagnostic w).range.start.character = 0)
      ∧ ((w.endLine = 0 ∨ w.endLine = 1) → (warning_to_diagnostic w).range.stop.line = 0)
      ∧ ((w.endColumn = 0 ∨ w.endColumn = 1) →
          (warning_to_diagnostic w).range.stop.character = 0) := by
  intro w
  refine ⟨rfl, rfl, ?_, ?_, ?_, ?_⟩ <;>
    rintro (h | h) <;> simp [warning_to_diagnostic, u32cast, h]

/-- A zero-line, column-one warning for exercising `c10_saturating_position_conversion`. -/
def w0 : LintWarning :=
  { ruleName := none, line := 0, column := 1, endLine := 0, endColumn := 0,
    message := "", severity := .Warning, fix := none }

theorem c10_saturating_position_conversion_witness :
    (warning_to_diagnostic w0).range.start.line = 0
      ∧ (warning_to_diagnostic w0).range.start.character = 0 :=
  ⟨(c10_saturating_position_conversion w0).2.2.1 (Or.inl rfl),
   (c10_saturating_position_conversion w0).2.2.2.1 (Or.inr rfl)⟩

/-- Claim C7: for a warning carrying a fix, if the fix byte range cannot be
mapped to positions then no code action is produced while the diagnostic is
still produced (it is total and keeps the warning message); if the range maps
to `r`, the produced action carries exactly one text replacement over the one
identified document, the title `Fix: <message>`, the quick-fix kind, and the
preferred-fix marker. -/
theorem c7_code_action_mapping :
    ∀ (w : LintWarning) (uri : String) (text : List Char) (f : Fix),
      w.fix = some f →
      (byte_range_to_lsp_range text f.range.1 f.range.2 = none →
          warning_to_code_action w uri text = none
            ∧ (warning_to_diagnostic w).message = w.message)
      ∧ (∀ r, byte_range_to_lsp_range text f.range.1 f.range.2 = some r →
          warning_to_code_action w uri text
            = some { title := "Fix: " ++ w.message
                     kind := "quickfix"
                     diagnostics := [warning_to_diagnostic w]
                     edit := some { changes := [(uri, [{ range := r, newText := f.replacement }])] }
                     isPreferred := true }) := by
  intro w uri text f hf
  constructor
  · intro hnone
    refine ⟨?_, rfl⟩
    simp [warning_to_code_action, hf, hnone]
  · intro r hr
    simp [warning_to_code_action, hf, hr]

/-- A concrete fixable warning for exercising `c7_code_action_mapping`. -/
def wFixC7 : Fix := { range := (0, 1), replacement := "Z".data }

/-- A concrete warning carrying `wFixC7`. -/
def wC7 : LintWarning :=
  { ruleName := some "MD050", line := 1, column := 1, endLine := 1, endColumn := 2,
    message := "m", severity := .Warning, fix := some wFixC7 }

theorem c7_code_action_mapping_witness :
    warning_to_code_action wC7 "file:u" ("ab".data)
      = some { title := "Fix: " ++ wC7.message, kind := "quickfix",
               diagnostics := [warning_to_diagnostic wC7],
               edit := some { changes := [("file:u",
                 [{ range := { start := ⟨0, 0⟩, stop := ⟨0, 1⟩ },
                    newText := wFixC7.replacement }])] },
               isPreferred := true } :=
  (c7_code_action_mapping wC7 "file:u" ("ab".data) wFixC7 rfl).2
    { start := ⟨0, 0⟩, stop := ⟨0, 1⟩ } (by decide)

/-! ### Position-walk lemmas for the byte-range conversion -/

/-- One step of the line/character bookkeeping of the conversion loop. -/
def advancePos (p : LspPos) (c : Char) : LspPos :=
  if c = '\n' then { line := p.line + 1, character := 0 }
  else { line := p.line, character := p.character + 1 }

/-- The position reached after walking all of `cs` from `p`. -/
def posAfter (cs : List Char) (p : LspPos) : LspPos := cs.foldl advancePos p

theorem posAfterCons (c : Char) (cs : List Char) (x : LspPos) :
    posAfter (c :: cs) x = posAfter cs (advancePos x c) := rfl

theorem byteOffAtSucc (c : Char) (cs : List Char) (p : Nat) :
    byteOffAt (c :: cs) (p + 1) = c.utf8Size + byteOffAt cs p := rfl

theorem byteOffAtLen (cs : List Char) : byteOffAt cs cs.length = byteLen cs := by
  rw [byteOffAt, List.take_length]

theorem byteOffAtLe (cs : List Char) : ∀ p, byteOffAt cs p ≤ byteLen cs := by
  induction cs with
  | nil => intro p; simp [byteOffAt, byteLen]
  | cons c cs ih =>
    intro p
    cases p with
    | zero => exact Nat.zero_le _
    | succ q =>
      rw [byteOffAtSucc]
      show c.utf8Size + byteOffAt cs q ≤ c.utf8Size + byteLen cs
      exact Nat.add_le_add_left (ih q) _

theorem isBoundaryByteOffAt (cs : List Char) : ∀ p, p ≤ cs.length →
    isBoundary cs (byteOffAt cs p) = true := by
  induction cs with
  | nil =>
    intro p hp
    have : p = 0 := Nat.le_zero.mp hp
    subst this; rfl
  | cons c cs ih =>
    intro p hp
    cases p with
    | zero => rfl
    | succ q =>
      rw [byteOffAtSucc]
      have hsz := Char.utf8Size_pos c
      obtain ⟨b, hb⟩ : ∃ b, c.utf8Size + byteOffAt cs q = b + 1 :=
        ⟨c.utf8Size + byteOffAt cs q - 1, by omega⟩
      rw [hb]
      show isBoundary (c :: cs) (b + 1) = true
      simp only [isBoundary]
      rw [if_neg (by omega)]
      have hq : b + 1 - c.utf8Size = byteOffAt cs q := by omega
      rw [hq]
      exact ih q (by simpa using Nat.le_of_succ_le_succ hp)

theorem reachOfBoundary : ∀ (cs : List Char) (b : Nat), isBoundary cs b = true →
    ∃ p, p ≤ cs.length ∧ byteOffAt cs p = b := by
  intro cs
  induction cs with
  | nil =>
    intro b h
    cases b with
    | zero => exact ⟨0, Nat.le_refl 0, rfl⟩
    | succ b => simp [isBoundary] at h
  | cons c cs ih =>
    intro b h
    cases b with
    | zero => exact ⟨0, Nat.zero_le _, rfl⟩
    | succ b =>
      simp only [isBoundary] at h
      by_cases hlt : b + 1 < c.utf8Size
      · rw [if_pos hlt] at h; cases h
      · rw [if_neg hlt] at h
        obtain ⟨q, hq, hoff⟩ := ih _ h
        refine ⟨q + 1, by simpa using Nat.succ_le_succ hq, ?_⟩
        rw [byteOffAtSucc, hoff]
        omega

theorem unreachOfNotBoundary (cs : List Char) (s : Nat) (h : isBoundary cs s = false) :
    ∀ p, p ≤ cs.length → byteOffAt cs p ≠ s := by
  intro p hp he
  have hb := isBoundaryByteOffAt cs p hp
  rw [he, h] at hb
  cases hb

theorem brGoNoneStartUnreachable (bstart bend : Nat) :
    ∀ (cs : List Char) (line ch bp : Nat),
      (∀ p, p ≤ cs.length → bp + byteOffAt cs p ≠ bstart) →
      brGo bstart bend cs line ch bp none = none := by
  intro cs
  induction cs with
  | nil =>
    intro line ch bp _
    simp only [brGo]
    split <;> rfl
  | cons c cs ih =>
    intro line ch bp h
    have hbp : ¬ bp = bstart := by
      have := h 0 (Nat.zero_le _)
      simpa [byteOffAt] using this
    have h' : ∀ p, p ≤ cs.length → (bp + c.utf8Size) + byteOffAt cs p ≠ bstart := by
      intro p hp
      have := h (p + 1) (Nat.succ_le_succ hp)
      rw [byteOffAtSucc] at this
      omega
    simp only [brGo, if_neg hbp]
    by_cases hend : bp = bend
    · rw [if_pos hend]
    · rw [if_neg hend]
      by_cases hnl : c = '\n'
      · rw [if_pos hnl]; exact ih _ _ _ h'
      · rw [if_neg hnl]; exact ih _ _ _ h'

theorem brGoNoneEndUnreachable (bstart bend : Nat) :
    ∀ (cs : List Char) (line ch bp : Nat) (sp : Option LspPos),
      (∀ p, p ≤ cs.length → bp + byteOffAt cs p ≠ bend) →
      brGo bstart bend cs line ch bp sp = none := by
  intro cs
  induction cs with
  | nil =>
    intro line ch bp sp h
    have hbp : ¬ bp = bend := by
      have := h 0 (Nat.zero_le _)
      simpa [byteOffAt] using this
    simp only [brGo, if_neg hbp]
  | cons c cs ih =>
    intro line ch bp sp h
    have hbp : ¬ bp = bend := by
      have := h 0 (Nat.zero_le _)
      simpa [byteOffAt] using this
    have h' : ∀ p, p ≤ cs.length → (bp + c.utf8Size) + byteOffAt cs p ≠ bend := by
      intro p hp
      have := h (p + 1) (Nat.succ_le_succ hp)
      rw [byteOffAtSucc] at this
      omega
    simp only [brGo, if_neg hbp]
    by_cases hnl : c = '\n'
    · rw [if_pos hnl]; exact ih _ _ _ _ h'
    · rw [if_neg hnl]; exact ih _ _ _ _ h'

theorem brGoStarted (bstart bend : Nat) :
    ∀ (cs : List Char) (line ch bp : Nat) (st : LspPos),
      bend = bp + byteLen cs → bstart < bp →
      brGo bstart bend cs line ch bp (some st)
        = some { start := st, stop := posAfter cs { line := line, character := ch } } := by
  intro cs
  induction cs with
  | nil =>
    intro line ch bp st hend _
    have hbp : bp = bend := by simp [byteLen] at hend; omega
    simp [brGo, hbp, posAfter]
  | cons c cs ih =>
    intro line ch bp st hend hlt
    have hsz := Char.utf8Size_pos c
    have hblen : byteLen (c :: cs) = c.utf8Size + byteLen cs := rfl
    have hne : ¬ bp = bend := by rw [hblen] at hend; omega
    have hns : ¬ bp = bstart := by omega
    have hend' : bend = (bp + c.utf8Size) + byteLen cs := by rw [hblen] at hend; omega
    have hlt' : bstart < bp + c.utf8Size := by omega
    simp only [brGo, if_neg hns, if_neg hne]
    rw [posAfterCons]
    by_cases hnl : c = '\n'
    · rw [if_pos hnl]
      simp only [advancePos, if_pos hnl]
      exact ih _ _ _ _ hend' hlt'
    · rw [if_neg hnl]
      simp only [advancePos, if_neg hnl]
      exact ih _ _ _ _ hend' hlt'

theorem brGoWillStart (bstart bend : Nat) :
    ∀ (cs : List Char) (p line ch bp : Nat),
      p < cs.length → bstart = bp + byteOffAt cs p → bend = bp + byteLen cs →
      ∃ st, brGo bstart bend cs line ch bp none
        = some { start := st, stop := posAfter cs { line := line, character := ch } } := by
  intro cs
  induction cs with
  | nil => intro p _ _ _ hp; simp at hp
  | cons c cs ih =>
    intro p line ch bp hp hs he
    have hsz := Char.utf8Size_pos c
    have hblen : byteLen (c :: cs) = c.utf8Size + byteLen cs := rfl
    have hne : ¬ bp = bend := by rw [hblen] at he; omega
    have he' : bend = (bp + c.utf8Size) + byteLen cs := by rw [hblen] at he; omega
    cases p with
    | zero =>
      have hst : bp = bstart := by
        have : byteOffAt (c :: cs) 0 = 0 := rfl
        rw [this] at hs
        omega
      refine ⟨{ line := line, character := ch }, ?_⟩
      simp only [brGo, if_pos hst, if_neg hne]
      rw [posAfterCons]
      by_cases hnl : c = '\n'
      · rw [if_pos hnl]
        simp only [advancePos, if_pos hnl]
        exact brGoStarted bstart bend cs _ _ _ _ he' (by omega)
      · rw [if_neg hnl]
        simp only [advancePos, if_neg hnl]
        exact brGoStarted bstart bend cs _ _ _ _ he' (by omega)
    | succ q =>
      have hs' : bstart = (bp + c.utf8Size) + byteOffAt cs q := by
        rw [hs, byteOffAtSucc]; omega
      have hns : ¬ bp = bstart := by
        have := byteOffAt cs q
        omega
      have hq : q < cs.length := by simpa using Nat.lt_of_succ_lt_succ hp
      by_cases hnl : c = '\n'
      · obtain ⟨st, hrec⟩ := ih q (line + 1) 0 (bp + c.utf8Size) hq hs' he'
        refine ⟨st, ?_⟩
        simp only [brGo, if_neg hns, if_neg hne, if_pos hnl]
        rw [posAfterCons]
        simp only [advancePos, if_pos hnl]
        exact hrec
      · obtain ⟨st, hrec⟩ := ih q line (ch + 1) (bp + c.utf8Size) hq hs' he'
        refine ⟨st, ?_⟩
        simp only [brGo, if_neg hns, if_neg hne, if_neg hnl]
        rw [posAfterCons]
        simp only [advancePos, if_neg hnl]
        exact hrec

/-- Claim C6 counterexample: for the one-character text `a` and the byte range
1..1, both offsets are character boundaries and the end offset equals the text
length, yet the conversion fails — a start offset equal to the text length is
never recorded, because the start position is only recognised strictly before a
character.  The claim asserts success for every character-aligned in-range
start when the end equals the text length. -/
theorem c6_counterexample :
    isBoundary ("a".data) 1 = true ∧ byteLen ("a".data) = 1
      ∧ byte_range_to_lsp_range ("a".data) 1 1 = none := by
  refine ⟨by decide, by decide, by decide⟩

/-- Claim C6 (amended): the conversion returns `none` whenever either offset
fails to be a character boundary or lies beyond the end of the text; and when
the end offset equals the byte length of the text and the start offset is a
character boundary strictly below the byte length, it succeeds, with the end
position being the position immediately after the last character (`posAfter`
over the whole text). -/
theorem c6_byte_range_mapping :
    ∀ (text : List Char) (s e : Nat),
      ((isBoundary text s = false ∨ isBoundary text e = false
          ∨ byteLen text < s ∨ byteLen text < e) →
        byte_range_to_lsp_range text s e = none)
      ∧ (isBoundary text s = true → s < byteLen text → e = byteLen text →
          ∃ st, byte_range_to_lsp_range text s e
            = some { start := st, stop := posAfter text { line := 0, character := 0 } }) := by
  intro text s e
  constructor
  · intro h
    unfold byte_range_to_lsp_range
    rcases h with h | h | h | h
    · refine brGoNoneStartUnreachable s e text 0 0 0 (fun p hp => ?_)
      have := unreachOfNotBoundary text s h p hp
      simpa using this
    · refine brGoNoneEndUnreachable s e text 0 0 0 none (fun p hp => ?_)
      have := unreachOfNotBoundary text e h p hp
      simpa using this
    · refine brGoNoneStartUnreachable s e text 0 0 0 (fun p hp => ?_)
      have := byteOffAtLe text p
      omega
    · refine brGoNoneEndUnreachable s e text 0 0 0 none (fun p hp => ?_)
      have := byteOffAtLe text p
      omega
  · intro hb hlt he
    obtain ⟨p, hp, hoff⟩ := reachOfBoundary text s hb
    have hplt : p < text.length := by
      rcases Nat.lt_or_ge p text.length with h | h
      · exact h
      · have hpe : p = text.length := by omega
        rw [hpe, byteOffAtLen] at hoff
        omega
    obtain ⟨st, hst⟩ := brGoWillStart s e text p 0 0 0 hplt (by simpa using hoff.symm)
      (by simpa using he)
    exact ⟨st, hst⟩

theorem c6_byte_range_mapping_witness :
    ∃ st, byte_range_to_lsp_range ("ab".data) 0 2
      = some { start := st, stop := posAfter ("ab".data) { line := 0, character := 0 } } :=
  (c6_byte_range_mapping ("ab".data) 0 2).2 (by decide) (by decide) (by decide)

/-! ### Sortedness of check output (claim C8) -/

/-- Ascending (line, column) order between two warnings. -/
def lineColLE (a b : LintWarning) : Prop :=
  a.line < b.line ∨ (a.line = b.line ∧ a.column ≤ b.column)

/-- Ascending (line, column) order between two violation triples of MD044. -/
def tripLE (a b : Nat × Nat × List Char) : Prop :=
  a.1 < b.1 ∨ (a.1 = b.1 ∧ a.2.1 ≤ b.2.1)

theorem pairwiseFilterMap (f : α → Option β) (R : α → α → Prop) (S : β → β → Prop)
    (H : ∀ a b, R a b → ∀ x, f a = some x → ∀ y, f b = some y → S x y) :
    ∀ l : List α, l.Pairwise R → (l.filterMap f).Pairwise S := by
  intro l hl
  induction hl with
  | nil => simp
  | @cons a l' hR hP ih =>
    cases hfa : f a with
    | none => simpa [List.filterMap_cons, hfa] using ih
    | some x =>
      rw [List.filterMap_cons, hfa]
      refine List.Pairwise.cons ?_ ih
      intro y hy
      obtain ⟨b, hb, hfb⟩ := List.mem_filterMap.mp hy
      exact H a b (hR b hb) x hfa y hfb

theorem findIterAuxGe (f : Nat → Option Nat) (stop : Nat) :
    ∀ (fuel pos : Nat), ∀ m ∈ findIterAux f stop fuel pos, pos ≤ m.1 := by
  intro fuel
  induction fuel with
  | zero => intro pos m hm; simp [findIterAux] at hm
  | succ fuel ih =>
    intro pos m hm
    simp only [findIterAux] at hm
    by_cases hgt : pos > stop
    · rw [if_pos hgt] at hm; simp at hm
    · rw [if_neg hgt] at hm
      cases hf : f pos with
      | some e =>
        rw [hf] at hm
        rcases List.mem_cons.mp hm with rfl | hm
        · exact Nat.le_refl _
        · have h1 := ih (max e (pos + 1)) m hm
          have h2 : pos + 1 ≤ max e (pos + 1) := Nat.le_max_right _ _
          omega
      | none =>
        rw [hf] at hm
        have := ih (pos + 1) m hm
        omega

theorem findIterAuxSorted (f : Nat → Option Nat) (stop : Nat) :
    ∀ (fuel pos : Nat), (findIterAux f stop fuel pos).Pairwise (fun a b => a.1 < b.1) := by
  intro fuel
  induction fuel with
  | zero => intro pos; simp [findIterAux]
  | succ fuel ih =>
    intro pos
    simp only [findIterAux]
    by_cases hgt : pos > stop
    · rw [if_pos hgt]; exact List.Pairwise.nil
    · rw [if_neg hgt]
      cases hf : f pos with
      | some e =>
        refine List.Pairwise.cons ?_ (ih _)
        intro m hm
        have h1 := findIterAuxGe f stop fuel (max e (pos + 1)) m hm
        have h2 : pos + 1 ≤ max e (pos + 1) := Nat.le_max_right _ _
        omega
      | none => exact ih _

theorem findIterSorted (f : Nat → Option Nat) (len : Nat) :
    (findIter f len).Pairwise (fun a b => a.1 < b.1) :=
  findIterAuxSorted f len (len + 1) 0

theorem byteOffAtMono (cs : List Char) : ∀ {p q : Nat}, p ≤ q →
    byteOffAt cs p ≤ byteOffAt cs q := by
  induction cs with
  | nil =>
    intro p q _
    show byteLen (List.take p []) ≤ byteLen (List.take q [])
    simp [List.take_nil]
  | cons c cs ih =>
    intro p q hpq
    cases p with
    | zero => exact Nat.zero_le _
    | succ p1 =>
      cases q with
      | zero => omega
      | succ q1 =>
        rw [byteOffAtSucc, byteOffAtSucc]
        exact Nat.add_le_add_left (ih (Nat.le_of_succ_le_succ hpq)) _

theorem charIdxOfByteMono (cs : List Char) : ∀ {b d : Nat}, b ≤ d →
    charIdxOfByte cs b ≤ charIdxOfByte cs d := by
  induction cs with
  | nil => intro b d _; simp [charIdxOfByte]
  | cons c cs ih =>
    intro b d hbb
    cases b with
    | zero => exact Nat.zero_le _
    | succ x =>
      cases d with
      | zero => omega
      | succ y =>
        simp only [charIdxOfByte]
        by_cases hx : x + 1 < c.utf8Size
        · rw [if_pos hx]; exact Nat.zero_le _
        · rw [if_neg hx]
          by_cases hy : y + 1 < c.utf8Size
          · omega
          · rw [if_neg hy]
            have := ih (b := x + 1 - c.utf8Size) (d := y + 1 - c.utf8Size) (by omega)
            omega

theorem mkWarning050Line (cs : List Char) (t : StrongStyle) (lineNo : Nat) (line : List Char)
    (s e : Nat) : (mkWarning050 cs t lineNo line s e).line = lineNo := rfl

theorem mkWarning050Col (cs : List Char) (t : StrongStyle) (lineNo : Nat) (line : List Char)
    (s e : Nat) :
    (mkWarning050 cs t lineNo line s e).column = charIdxOfByte line (byteOffAt line s) + 1 := rfl

theorem check050LinesBound (cs : List Char) (t : StrongStyle) (inCode : Nat → Bool) :
    ∀ (lines : List (List Char)) (n bp : Nat),
      ∀ w ∈ check050Lines cs t inCode lines n bp, n + 1 ≤ w.line := by
  intro lines
  induction lines with
  | nil => intro n bp w hw; simp [check050Lines] at hw
  | cons line rest ih =>
    intro n bp w hw
    rw [check050Lines, List.mem_append] at hw
    rcases hw with hw | hw
    · obtain ⟨m, hm, hfm⟩ := List.mem_filterMap.mp hw
      split at hfm
      · cases hfm
      · split at hfm
        · cases hfm
        · injection hfm with h
          rw [← h, mkWarning050Line]
    · have := ih (n + 1) _ w hw
      omega

theorem check050LinesSorted (cs : List Char) (t : StrongStyle) (inCode : Nat → Bool) :
    ∀ (lines : List (List Char)) (n bp : Nat),
      (check050Lines cs t inCode lines n bp).Pairwise lineColLE := by
  intro lines
  induction lines with
  | nil => intro n bp; simp [check050Lines]
  | cons line rest ih =>
    intro n bp
    rw [check050Lines, List.pairwise_append]
    refine ⟨?_, ih _ _, ?_⟩
    · refine pairwiseFilterMap _ (fun a b => a.1 < b.1) lineColLE ?_ _ (findIterSorted _ _)
      intro a b hab x hx y hy
      split at hx
      · cases hx
      · split at hx
        · cases hx
        · split at hy
          · cases hy
          · split at hy
            · cases hy
            · injection hx with hx
              injection hy with hy
              subst hx; subst hy
              right
              refine ⟨rfl, ?_⟩
              show charIdxOfByte line (byteOffAt line a.1) + 1
                ≤ charIdxOfByte line (byteOffAt line b.1) + 1
              have h1 := byteOffAtMono line (Nat.le_of_lt hab)
              have h2 := charIdxOfByteMono line h1
              omega
    · intro a ha b hb
      obtain ⟨m, hm, hfm⟩ := List.mem_filterMap.mp ha
      split at hfm
      · cases hfm
      · split at hfm
        · cases hfm
        · injection hfm with h
          have hbl := check050LinesBound cs t inCode rest (n + 1) _ b hb
          left
          rw [← h, mkWarning050Line]
          omega

theorem lineViols044Line (cfg : MD044Config) (alts : List (List Char)) (line : List Char)
    (lineNo : Nat) : ∀ v ∈ lineViols044 cfg alts line lineNo, v.1 = lineNo := by
  intro v hv
  obtain ⟨m, hm, hfm⟩ := List.mem_filterMap.mp hv
  split at hfm
  · split at hfm
    · injection hfm with h; rw [← h]
    · cases hfm
  · cases hfm

theorem lineViols044Sorted (cfg : MD044Config) (alts : List (List Char)) (line : List Char)
    (lineNo : Nat) : (lineViols044 cfg alts line lineNo).Pairwise tripLE := by
  refine pairwiseFilterMap _ (fun a b => a.1 < b.1) tripLE ?_ _ (findIterSorted _ _)
  intro a b hab x hx y hy
  split at hx
  · split at hx
    · split at hy
      · split at hy
        · injection hx with hx
          injection hy with hy
          subst hx; subst hy
          right
          refine ⟨rfl, ?_⟩
          show byteOffAt line a.1 + 1 ≤ byteOffAt line b.1 + 1
          have := byteOffAtMono line (Nat.le_of_lt hab)
          omega
        · cases hy
      · cases hy
    · cases hx
  · cases hx

theorem findViols044Bound (cfg : MD044Config) (alts : List (List Char)) (inCode : Nat → Bool) :
    ∀ (lines : List (List Char)) (n bp : Nat),
      ∀ v ∈ findViols044Lines cfg alts inCode lines n bp, n + 1 ≤ v.1 := by
  intro lines
  induction lines with
  | nil => intro n bp v hv; simp [findViols044Lines] at hv
  | cons line rest ih =>
    intro n bp v hv
    rw [findViols044Lines] at hv
    split at hv
    · have := ih (n + 1) _ v hv; omega
    · split at hv
      · have := ih (n + 1) _ v hv; omega
      · split at hv
        · have := ih (n + 1) _ v hv; omega
        · rcases List.mem_append.mp hv with hv | hv
          · rw [lineViols044Line cfg alts line (n + 1) v hv]
          · have := ih (n + 1) _ v hv; omega

theorem findViols044Sorted (cfg : MD044Config) (alts : List (List Char)) (inCode : Nat → Bool) :
    ∀ (lines : List (List Char)) (n bp : Nat),
      (findViols044Lines cfg alts inCode lines n bp).Pairwise tripLE := by
  intro lines
  induction lines with
  | nil => intro n bp; simp [findViols044Lines]
  | cons line rest ih =>
    intro n bp
    rw [findViols044Lines]
    split
    · exact ih _ _
    · split
      · exact ih _ _
      · split
        · exact ih _ _
        · rw [List.pairwise_append]
          refine ⟨lineViols044Sorted cfg alts line (n + 1), ih _ _, ?_⟩
          intro a ha b hb
          have hal := lineViols044Line cfg alts line (n + 1) a ha
          have hbl := findViols044Bound cfg alts inCode rest (n + 1) _ b hb
          left
          omega

theorem mkWarning044Line (cs : List Char) (v : Nat × Nat × List Char) (proper : List Char) :
    (mkWarning044 cs v proper).line = v.1 := rfl

theorem mkWarning044Col (cs : List Char) (v : Nat × Nat × List Char) (proper : List Char) :
    (mkWarning044 cs v proper).column = v.2.1 := rfl

theorem check044Sorted (cfg : MD044Config) (inCode : Nat → Bool) (cs : List Char) :
    (check044 cfg inCode cs).Pairwise lineColLE := by
  rw [check044]
  split
  · exact List.Pairwise.nil
  · refine pairwiseFilterMap _ tripLE lineColLE ?_ _ ?_
    · intro a b hab x hx y hy
      obtain ⟨pa, hpa, hxa⟩ := Option.map_eq_some'.mp hx
      obtain ⟨pb, hpb, hyb⟩ := Option.map_eq_some'.mp hy
      subst hxa; subst hyb
      rcases hab with h | ⟨h1, h2⟩
      · left
        rw [mkWarning044Line, mkWarning044Line]
        exact h
      · right
        rw [mkWarning044Line, mkWarning044Line, mkWarning044Col, mkWarning044Col]
        exact ⟨h1, h2⟩
    · rw [find_name_violations]
      split
      · exact List.Pairwise.nil
      · split
        · exact List.Pairwise.nil
        · exact findViols044Sorted cfg (altList cfg.names) inCode (rustLines cs) 0 0

/-- Claim C8: for every document, configuration and code-region oracle, the
violation sequences returned by MD044 `check` and MD050 `check` are sorted in
ascending order by line, then by column. -/
theorem c8_check_sorted :
    ∀ (cfg : MD044Config) (style : StrongStyle) (inCode : Nat → Bool) (cs : List Char),
      (check044 cfg inCode cs).Pairwise lineColLE
        ∧ (check050 style inCode cs).Pairwise lineColLE := by
  intro cfg style inCode cs
  refine ⟨check044Sorted cfg inCode cs, ?_⟩
  rw [check050]
  exact check050LinesSorted cs (resolveStyle style inCode cs) inCode (rustLines cs) 0 0

end Rumdl
